import Mathlib

/-!
Verification development for `src/word_counter.cpp`, a multithreaded n-gram /
word counter.  The program is embedded shallowly: raw file bytes are `List Nat`
(one `Nat` per `unsigned char`), `std::string` keys are `List Nat`,
`std::map<std::string, uint64_t>` is an association list with unique keys, and
the concurrent pipeline of `wc::wordCounter::compute` is modelled by running
the per-worker closure `sweep` for workers `0, 1, ..., num_threads - 1` in id
order (a fixed linearization; the data handed between workers through the
promise/future slots is written once and read once, so the per-worker results
do not depend on the interleaving, and the final `freq` merge is a per-key sum,
which commutes).
-/

namespace WordCounter

/-- Byte strings: the contents of files and the keys of all maps. -/
abbrev Str := List Nat

/-- `std::map<std::string, uint64_t>` as an association list (unique keys). -/
abbrev Fmap := List (Str × Nat)

/-- Modelled from the spec: `default_punct`, the reserved sentinel byte, is
declared in `word_counter.hpp`, which is not part of `src/`.  The spec fixes it
by example ("sentinel = `.`"), so it is the byte of `'.'`, 46. -/
def default_punct : Nat := 46

/-- `std::ispunct` in the default "C" locale: the four ASCII punctuation
ranges `!`..`/`, `:`..`@`, `[`..`` ` ``, `{`..`~`. -/
def ispunct (c : Nat) : Bool :=
  (33 ≤ c && c ≤ 47) || (58 ≤ c && c ≤ 64) || (91 ≤ c && c ≤ 96) || (123 ≤ c && c ≤ 126)

/-- ASCII digit test, `c >= '0' && c <= '9'` in the source. -/
def isdigitB (c : Nat) : Bool := 48 ≤ c && c ≤ 57

/-- `std::tolower` in the default "C" locale: maps `A`..`Z` to `a`..`z` and
leaves every other value unchanged. -/
def tolower (c : Nat) : Nat := if 65 ≤ c && c ≤ 90 then c + 32 else c

/-- The lambda of the `std::transform` call in `process_file` (normalization):
`\n` and `\t` become a space, digits and punctuation become `default_punct`,
everything else is lowercased. -/
def normalizeByte (c : Nat) : Nat :=
  if c = 10 || c = 9 then 32
  else if isdigitB c || ispunct c then default_punct
  else tolower c

/-- The whole-buffer normalization, `std::transform` over `contents`. -/
def normalize (s : Str) : Str := s.map normalizeByte

/-- A word constituent for `std::regex("\\W+")`: `\w` is `[A-Za-z0-9_]`
(bytes ≥ 128 are not word constituents in the "C" locale). -/
def isWordChar (c : Nat) : Bool :=
  (48 ≤ c && c ≤ 57) || (65 ≤ c && c ≤ 90) || (97 ≤ c && c ≤ 122) || c = 95

/-- Token enumeration of `std::sregex_token_iterator(first, last, "\\W+", -1)`
(libstdc++ semantics, checked against the library): the possibly-empty prefix
before the first separator run, the non-empty stretches between separator
runs, and the suffix when it is non-empty; an input with no separator at all
(including the empty input) yields itself as a single token.  `inTok = true`
means a token (accumulated in `acc`, reversed) is currently open; the initial
state opens an empty token, which produces the leading empty token exactly
when the input is empty or starts with a separator. -/
def tokensGo (inTok : Bool) (s : Str) (acc : Str) : List Str :=
  match s, inTok with
  | [], true => [acc.reverse]
  | [], false => []
  | c :: rest, true =>
      if isWordChar c then tokensGo true rest (c :: acc)
      else acc.reverse :: tokensGo false rest []
  | c :: rest, false =>
      if isWordChar c then tokensGo true rest [c] else tokensGo false rest []

/-- All tokens the regex token iterator yields for `s`. -/
def libTokens (s : Str) : List Str := tokensGo true s []

/-- `if (*iter == "") iter++;` — the sentence loop skips one leading empty
token (the iterator always yields at least one token, so the dereference is
defined). -/
def skipLeadingEmptyTok : List Str → List Str
  | [] :: rest => rest
  | l => l

/-- The token sequence `retrieve_n_gram` receives for one sentence. -/
def sentenceTokens (s : Str) : List Str := skipLeadingEmptyTok (libTokens s)

/-- The token sequence of the word-frequency loop at the end of
`process_file`: every token of the full normalized contents, with all empty
tokens filtered out (`if (*iter != "")`). -/
def fileWordTokens (s : Str) : List Str := (libTokens s).filter (fun t => t ≠ [])

/-- `std::string::operator[]`: positions below the size yield the byte there;
position = size yields the null terminator (defined behaviour since C++11). -/
def stringIndex (s : Str) (i : Nat) : Nat := s.getD i 0

/-- The sentence scan loop
`while (my_string[i] != default_punct && i < my_string.size())` of
`process_file`, started at absolute position `i` with `rem = s.drop i`
remaining.  Every iteration first reads position `i` (also when `i` equals the
size, where the read yields the null terminator and the loop then exits via
the bounds test).  Returns the collected sentence, the final value of `i`, and
the list of positions read. -/
def scanGo (rem : Str) (i : Nat) : Str × Nat × List Nat :=
  match rem with
  | [] => ([], i, [i])
  | c :: rest =>
      if c = default_punct then ([], i, [i])
      else
        let r := scanGo rest (i + 1)
        (c :: r.1, r.2.1, i :: r.2.2)

/-- The positions read by one run of the sentence scan loop over `s`. -/
def scanReads (s : Str) : List Nat := (scanGo s 0).2.2

/-- The outer sentence loop of `process_file` (`while (my_string.size() > 0)`),
with explicit fuel; one step consumes at least one byte, so the wrapper's fuel
`s.length + 1` never runs out.  After a sentence ending at `i`, the loop
continues on `substr(i)` when `i` is the size (the empty string, ending the
loop) and on `substr(i + 1)` otherwise. -/
def sentencesGo (fuel : Nat) (s : Str) : List Str :=
  match fuel, s with
  | 0, _ => []
  | _ + 1, [] => []
  | fuel + 1, s@(_ :: _) =>
      let r := scanGo s 0
      if r.2.1 = s.length then [r.1] else r.1 :: sentencesGo fuel (s.drop (r.2.1 + 1))

/-- The sentences of a normalized buffer, in scan order. -/
def sentences (s : Str) : List Str := sentencesGo (s.length + 1) s

/-- The n-gram string built by `retrieve_n_gram` from the first `n` tokens:
tokens joined by one space (byte 32). -/
def joinGram (n : Nat) (toks : List Str) : Str := List.intercalate [32] (toks.take n)

/-- The sentence-bounded sliding windows of `n` consecutive tokens (spec 4.2),
each already joined into its n-gram string: one window starts at every
position whose suffix still holds at least `n` tokens.  `retrieve_n_gram` is
proven below to record exactly these. -/
def windowGrams (n : Nat) : List Str → List Str
  | [] => []
  | t :: rest =>
      if n ≤ (t :: rest).length then joinGram n (t :: rest) :: windowGrams n rest
      else []

/-- Lookup in a `std::map` model. -/
def mapLookup (k : Str) : Fmap → Option Nat
  | [] => none
  | (k', v) :: rest => if k' = k then some v else mapLookup k rest

/-- The count stored for `k` (0 when absent). -/
def valD (m : Fmap) (k : Str) : Nat := (mapLookup k m).getD 0

/-- `m[k] += v` through `operator[]` (value-initialized to 0 on a miss). -/
def mapAdd (k : Str) (v : Nat) : Fmap → Fmap
  | [] => [(k, v)]
  | (k', v') :: rest => if k' = k then (k', v' + v) :: rest else (k', v') :: mapAdd k v rest

/-- `m[k] = v` through `operator[]` (insert or overwrite). -/
def mapSet (k : Str) (v : Nat) : Fmap → Fmap
  | [] => [(k, v)]
  | (k', v') :: rest => if k' = k then (k', v) :: rest else (k', v') :: mapSet k v rest

/-- A well-formed map model: keys occur at most once (always true of the lists
standing for `std::map` values here). -/
def mapWF (m : Fmap) : Prop := (m.map Prod.fst).Nodup

/-- In-place update of one slot of a `std::vector`. -/
def setAt (l : List α) (t : Nat) (g : α → α) : List α :=
  match l, t with
  | [], _ => []
  | x :: xs, 0 => g x :: xs
  | x :: xs, t + 1 => x :: setAt xs t g

/-- The local state a worker threads through `process_file`: the word
frequency map, the n-gram frequency map, the first-seen n-gram list, and the
lines the worker has written to `std::cout`. -/
structure LocalState where
  local_freq : Fmap
  ngram_freq : Fmap
  ngrams : List Str
  prints : List Str
deriving DecidableEq

/-- The empty local state a worker starts `sweep` with. -/
def initLS : LocalState := ⟨[], [], [], []⟩

/-- The body of one `retrieve_n_gram` call on gram `g`: push `g` onto
`local_n_grams` when it is new, increment `local_n_gram_freq[g]`, and print
`g` (the `std::cout` line under `io_mutex`). -/
def noteGram (g : Str) (st : LocalState) : LocalState :=
  { st with
    ngrams := if mapLookup g st.ngram_freq = none then st.ngrams ++ [g] else st.ngrams,
    ngram_freq := mapAdd g 1 st.ngram_freq,
    prints := st.prints ++ [g] }

/-- `wc::wordCounter::retrieve_n_gram`: while at least `n` tokens remain,
record the gram of the first `n` tokens and recurse past one token.  With
`n = 0` the guard also holds at the end of the sequence, where the C++
increments the past-the-end iterator — undefined behaviour, modelled as
`none`; with `n ≥ 1` the result is always `some`. -/
def retrieve_n_gram (n : Nat) (toks : List Str) (st : LocalState) : Option LocalState :=
  match toks with
  | [] => if n = 0 then none else some st
  | t :: rest =>
      if n ≤ (t :: rest).length then
        retrieve_n_gram n rest (noteGram (joinGram n (t :: rest)) st)
      else some st

/-- The sentence loop body iterated over all sentences. -/
def goSentences (n : Nat) : List Str → LocalState → Option LocalState
  | [], st => some st
  | s :: rest, st => (retrieve_n_gram n (sentenceTokens s) st).bind (goSentences n rest)

/-- `wc::wordCounter::process_file` on one file.  A file whose read fails
yields an empty stream buffer, hence empty contents (`none` input).  The
contents are normalized in place, the sentence loop feeds each sentence's
tokens to `retrieve_n_gram`, and the final loop counts every non-empty token
of the full normalized contents into `local_freq`. -/
def process_file (n : Nat) (fileContents : Option Str) (st : LocalState) : Option LocalState :=
  let contents := normalize (fileContents.getD [])
  (goSentences n (sentences contents) st).map (fun st2 =>
    { st2 with
      local_freq := (fileWordTokens contents).foldl (fun m t => mapAdd t 1 m) st2.local_freq })

/-- The `for (fs::path file : my_files_to_sweep)` loop. -/
def sweepFiles (n : Nat) : List (Option Str) → LocalState → Option LocalState
  | [], st => some st
  | f :: fs, st => (process_file n f st).bind (sweepFiles n fs)

/-- The group-by loop of `sweep`: starting from `num_threads` empty maps, each
first-seen n-gram `g` is written, with its local count, into the sub-map at
slot `hash(g) % num_threads`. -/
def group_by_thread (hashF : Str → Nat) (nw : Nat) (grams : List Str) (freqM : Fmap) :
    List Fmap :=
  grams.foldl (fun gs g => setAt gs (hashF g % nw) (mapSet g (valD freqM g))) (List.replicate nw [])

/-- The blocking events of one worker in the shuffle: setting promise `j`
(publish) and `get()`-ing future `j` (await). -/
inductive Ev where
  | publish : Nat → Ev
  | await : Nat → Ev
deriving DecidableEq

/-- What one worker's `sweep` closure produces: its two local maps, the
`num_threads` sub-maps it published (slot `j` is read by worker `j`), its
`std::cout` lines, and its publish/await event sequence. -/
structure SweepOut where
  local_freq : Fmap
  ngram_freq : Fmap
  groups : List Fmap
  prints : List Str
  trace : List Ev
deriving DecidableEq

/-- The `sweep` closure of `wc::wordCounter::compute` for one worker: count
all assigned files locally, partition the n-gram map by owner, publish all
`num_threads` promises (one loop), then block on all `num_threads` futures
(second loop).  `hash % num_threads` with `num_threads = 0` is undefined in
C++ (`none`); `compute` never reaches it, since no worker thread exists then. -/
def sweep (hashF : Str → Nat) (n nw : Nat) (files : List (Option Str)) : Option SweepOut :=
  (sweepFiles n files initLS).bind (fun st =>
    if nw = 0 ∧ st.ngrams ≠ [] then none
    else
      some { local_freq := st.local_freq, ngram_freq := st.ngram_freq,
             groups := group_by_thread hashF nw st.ngrams st.ngram_freq,
             prints := st.prints,
             trace := (List.range nw).map Ev.publish ++ (List.range nw).map Ev.await })

/-- The round-robin file partition of `compute`:
`files_to_sweep[i % num_threads].push_back(all_files[i])`. -/
def assignGo (nw : Nat) (i : Nat) (files : List α) (parts : List (List α)) : List (List α) :=
  match files with
  | [] => parts
  | f :: fs => assignGo nw (i + 1) fs (setAt parts (i % nw) (fun p => p ++ [f]))

/-- `files_to_sweep`, the per-worker file lists. -/
def assignFiles (nw : Nat) (files : List α) : List (List α) :=
  assignGo nw 0 files (List.replicate nw [])

/-- The `freq[word] += cnt` loop at the end of `sweep` (and, with the same
shape, the per-key summation of two maps): every entry of `sub` is added into
`acc`. -/
def mergeInto (acc sub : Fmap) : Fmap := sub.foldl (fun a kv => mapAdd kv.1 kv.2 a) acc

/-- The observable result of `wc::wordCounter::compute`:
`publications[i][j]` is the sub-map worker `i` published for worker `j`, `freq`
is the shared word-frequency member after all workers merged into it, and
`prints` are the `std::cout` n-gram lines in the modelled worker order. -/
structure ComputeResult where
  publications : List (List Fmap)
  freq : Fmap
  prints : List Str
deriving DecidableEq

/-- Sequencing of fallible per-element computations (the runs of the worker
closures, each of which is undefined only in the never-reached corner cases). -/
def mapOption (f : α → Option β) : List α → Option (List β)
  | [] => some []
  | a :: l => (f a).bind (fun b => (mapOption f l).map (fun bs => b :: bs))

/-- `wc::wordCounter::compute`: partition the files round-robin, run every
worker's `sweep`, and merge each worker's `local_freq` into the shared `freq`
member under the mutex (modelled in worker id order; per-key addition
commutes).  With `num_threads = 0` and a non-empty file list the partition
loop evaluates `i % 0` — undefined behaviour, modelled as `none`; with an
empty file list it completes with no workers at all. -/
def compute (hashF : Str → Nat) (n nw : Nat) (files : List (Option Str)) :
    Option ComputeResult :=
  if nw = 0 then
    if files = [] then some ⟨[], [], []⟩ else none
  else
    (mapOption (sweep hashF n nw) (assignFiles nw files)).map (fun outs =>
      { publications := outs.map SweepOut.groups,
        freq := outs.foldl (fun acc o => mergeInto acc o.local_freq) [],
        prints := (outs.map SweepOut.prints).flatten })

/-- The comparator passed to `std::sort` in `display`: count strictly
descending, ties broken by key ascending (`std::string::operator<`,
lexicographic). -/
def ltKey : Str → Str → Bool
  | [], [] => false
  | [], _ :: _ => true
  | _ :: _, [] => false
  | a :: as, b :: bs => decide (a < b) || (decide (a = b) && ltKey as bs)

/-- `p1.second > p2.second || (p1.second == p2.second && p1.first < p2.first)`. -/
def cmpPair (p q : Str × Nat) : Bool :=
  decide (q.2 < p.2) || (decide (p.2 = q.2) && ltKey p.1 q.1)

/-- Insertion into a list sorted by the strict comparator `cmpPair`: `x` goes
in front of the first element it compares before. -/
def insertPair (x : Str × Nat) : List (Str × Nat) → List (Str × Nat)
  | [] => [x]
  | y :: ys => if cmpPair x y then x :: y :: ys else y :: insertPair x ys

/-- A sort realizing `std::sort` with the `display` comparator.  The
comparator is a strict weak order whose equivalence classes are singletons on
lists with unique keys, so the sorted permutation is unique and any correct
sort — including `std::sort` — produces this one. -/
def sortPairs : List (Str × Nat) → List (Str × Nat)
  | [] => []
  | x :: xs => insertPair x (sortPairs xs)

/-- Decimal digits of a count, as `operator<<(std::ostream, uint64_t)` prints
them (fuel-based division loop; the wrapper's fuel always suffices). -/
def natDigitsGo (fuel n : Nat) : Str :=
  match fuel with
  | 0 => []
  | fuel + 1 => if n = 0 then [] else natDigitsGo fuel (n / 10) ++ [48 + n % 10]

/-- The byte string `std::cout << cnt` produces. -/
def natDigits (n : Nat) : Str := if n = 0 then [48] else natDigitsGo (n + 1) n

/-- One output line of `display`: `word << ": " << cnt` (bytes 58 32). -/
def renderLine (kv : Str × Nat) : Str := kv.1 ++ [58, 32] ++ natDigits kv.2

/-- `wc::wordCounter::display`: copy `freq` into a vector, sort it with the
count-descending / key-ascending comparator, and print one line per entry. -/
def display (freq : Fmap) : List Str := (sortPairs freq).map renderLine

/-- The configuration members stored by the `wc::wordCounter` constructor. -/
structure WordCounterState where
  dir : Str
  n : Nat
  num_threads : Nat
deriving DecidableEq

/-- The `wc::wordCounter` constructor: it initializes the three members and
does nothing else — no validation, no failure path. -/
def wordCounterCtor (dir : Str) (n num_threads : Nat) : WordCounterState :=
  ⟨dir, n, num_threads⟩

/-- Modelled from the spec: the program entry point is not part of `src/`;
per spec sections 2 and 6 it runs the pipeline (`compute`) and then the
reporter (`display`), so the externally observable output is the worker
`std::cout` lines followed by the lines of `display`. -/
def programOutput (hashF : Str → Nat) (n nw : Nat) (files : List (Option Str)) :
    Option (List Str) :=
  (compute hashF n nw files).map (fun r => r.prints ++ display r.freq)

/-- Modelled from the spec: the Reducer (spec 4.4) is absent from
`src/word_counter.cpp` — `sweep` reads the `num_workers` inbound sub-maps into
`my_fmaps` and then discards them.  Per the spec contract it merges them into
one final map by summing counts per key. -/
def reduceMaps (subs : List Fmap) : Fmap := subs.foldl mergeInto []

/-- The sub-maps worker `j` receives in the shuffle: `futures[j][i]` is wired
to `promises[i][j]`, so worker `j` reads each worker `i`'s sub-map for slot
`j`. -/
def receivedOf (r : ComputeResult) (nw j : Nat) : List Fmap :=
  (List.range nw).map (fun i => ((r.publications.getD i []).getD j []))

/-- All window n-grams of one normalized buffer, in sentence-scan order. -/
def windowsOfContents (n : Nat) (c : Str) : List Str :=
  ((sentences c).map (fun s => windowGrams n (sentenceTokens s))).flatten

/-- The number of occurrences of the n-gram `g` in one file's contents, per
the sentence-bounded sliding-window definition. -/
def fileOccurrences (n : Nat) (contents : Str) (g : Str) : Nat :=
  (windowsOfContents n (normalize contents)).count g

/-- The number of occurrences of the n-gram `g` across all input files (a
file whose read fails contributes its empty contents). -/
def totalOccurrences (n : Nat) (files : List (Option Str)) (g : Str) : Nat :=
  (files.map (fun f => fileOccurrences n (f.getD []) g)).sum

/-- The number of occurrences of the word `w` among the word tokens of one
file's normalized contents. -/
def fileWordCount (contents : Str) (w : Str) : Nat :=
  (fileWordTokens (normalize contents)).count w

/-- The number of occurrences of the word `w` across all input files. -/
def totalWordCount (files : List (Option Str)) (w : Str) : Nat :=
  (files.map (fun f => fileWordCount (f.getD []) w)).sum

/-- The n-gram window lines the pipeline prints, in file/sentence/window
order. -/
def specPrints (n : Nat) (files : List (Option Str)) : List Str :=
  (files.map (fun f => windowsOfContents n (normalize (f.getD [])))).flatten

/-- Folding `noteGram` over a list of grams: the cumulative effect of a run of
`retrieve_n_gram` calls. -/
def applyGrams (gs : List Str) (st : LocalState) : LocalState :=
  gs.foldl (fun st g => noteGram g st) st

/-- The pure mirror of `process_file` (which, for `n ≥ 1`, never hits the
undefined `n = 0` recursion and is proven equal to `some` of this). -/
def processFileP (n : Nat) (fileContents : Option Str) (st : LocalState) : LocalState :=
  let c := normalize (fileContents.getD [])
  let st2 := applyGrams (windowsOfContents n c) st
  { st2 with
    local_freq := (fileWordTokens c).foldl (fun m t => mapAdd t 1 m) st2.local_freq }

/-- The pure mirror of a worker's local counting phase over its file list. -/
def sweepLocalP (n : Nat) (files : List (Option Str)) : LocalState :=
  files.foldl (fun st f => processFileP n f st) initLS

/-- The pure mirror of `sweep` (equal to it for `n ≥ 1`, `num_threads ≥ 1`). -/
def sweepP (hashF : Str → Nat) (n nw : Nat) (files : List (Option Str)) : SweepOut :=
  let st := sweepLocalP n files
  { local_freq := st.local_freq, ngram_freq := st.ngram_freq,
    groups := group_by_thread hashF nw st.ngrams st.ngram_freq,
    prints := st.prints,
    trace := (List.range nw).map Ev.publish ++ (List.range nw).map Ev.await }

/-- The pure mirror of `compute` (equal to it for `n ≥ 1`, `num_threads ≥ 1`). -/
def computeP (hashF : Str → Nat) (n nw : Nat) (files : List (Option Str)) : ComputeResult :=
  let outs := (assignFiles nw files).map (sweepP hashF n nw)
  { publications := outs.map SweepOut.groups,
    freq := outs.foldl (fun acc o => mergeInto acc o.local_freq) [],
    prints := (outs.map SweepOut.prints).flatten }

/-- The invariant tying `local_n_grams` to `local_n_gram_freq`: the first-seen
list holds each key of the map exactly once, and the map is well formed. -/
def NGInv (st : LocalState) : Prop :=
  st.ngrams.Nodup ∧ (∀ g, g ∈ st.ngrams ↔ mapLookup g st.ngram_freq ≠ none) ∧
    mapWF st.ngram_freq

/-! ### Map lemmas -/

theorem mapLookup_eq_none_iff (k : Str) (m : Fmap) :
    mapLookup k m = none ↔ k ∉ m.map Prod.fst := by
  induction m with
  | nil => simp [mapLookup]
  | cons kv rest ih =>
      obtain ⟨k0, v0⟩ := kv
      by_cases h : k0 = k
      · subst h; simp [mapLookup]
      · have h' : ¬ k = k0 := fun e => h e.symm
        simp [mapLookup, h, h', ih]

theorem mapLookup_mapAdd (k k' : Str) (v : Nat) (m : Fmap) :
    mapLookup k' (mapAdd k v m) =
      if k' = k then some (valD m k + v) else mapLookup k' m := by
  induction m with
  | nil =>
      by_cases h : k' = k
      · subst h; simp [mapAdd, mapLookup, valD]
      · have h' : ¬ k = k' := fun e => h e.symm
        simp [mapAdd, mapLookup, valD, h, h']
  | cons kv rest ih =>
      obtain ⟨k0, v0⟩ := kv
      by_cases h0 : k0 = k
      · subst h0
        by_cases h : k0 = k'
        · subst h; simp [mapAdd, mapLookup, valD]
        · have h' : ¬ k' = k0 := fun e => h e.symm
          simp [mapAdd, mapLookup, valD, h, h']
      · by_cases h : k0 = k'
        · subst h
          have h' : ¬ k0 = k := h0
          have h'' : ¬ k = k0 := fun e => h0 e.symm
          simp [mapAdd, mapLookup, h', h'']
        · have h' : ¬ k' = k0 := fun e => h e.symm
          have h'' : ¬ k = k0 := fun e => h0 e.symm
          simp [mapAdd, mapLookup, valD, h0, h, h', h'', ih]

theorem valD_mapAdd (k k' : Str) (v : Nat) (m : Fmap) :
    valD (mapAdd k v m) k' = valD m k' + if k' = k then v else 0 := by
  by_cases h : k' = k
  · subst h; simp [valD, mapLookup_mapAdd]
  · simp [valD, mapLookup_mapAdd, h]

theorem mapLookup_mapSet (k k' : Str) (v : Nat) (m : Fmap) :
    mapLookup k' (mapSet k v m) =
      if k' = k then some v else mapLookup k' m := by
  induction m with
  | nil =>
      by_cases h : k' = k
      · subst h; simp [mapSet, mapLookup]
      · have h' : ¬ k = k' := fun e => h e.symm
        simp [mapSet, mapLookup, h, h']
  | cons kv rest ih =>
      obtain ⟨k0, v0⟩ := kv
      by_cases h0 : k0 = k
      · subst h0
        by_cases h : k0 = k'
        · subst h; simp [mapSet, mapLookup]
        · have h' : ¬ k' = k0 := fun e => h e.symm
          simp [mapSet, mapLookup, h, h']
      · by_cases h : k0 = k'
        · subst h
          have h' : ¬ k0 = k := h0
          simp [mapSet, mapLookup, h']
        · have h' : ¬ k' = k0 := fun e => h e.symm
          simp [mapSet, mapLookup, h0, h, h', ih]

theorem mem_keys_mapAdd (a k : Str) (v : Nat) (m : Fmap) :
    a ∈ (mapAdd k v m).map Prod.fst ↔ a ∈ m.map Prod.fst ∨ a = k := by
  induction m with
  | nil => simp [mapAdd]
  | cons kv rest ih =>
      obtain ⟨k0, v0⟩ := kv
      by_cases h0 : k0 = k
      · subst h0; simp [mapAdd]; tauto
      · simp [mapAdd, h0, ih]; tauto

theorem mem_keys_mapSet (a k : Str) (v : Nat) (m : Fmap) :
    a ∈ (mapSet k v m).map Prod.fst ↔ a ∈ m.map Prod.fst ∨ a = k := by
  induction m with
  | nil => simp [mapSet]
  | cons kv rest ih =>
      obtain ⟨k0, v0⟩ := kv
      by_cases h0 : k0 = k
      · subst h0; simp [mapSet]; tauto
      · simp [mapSet, h0, ih]; tauto

theorem mapWF_mapAdd (k : Str) (v : Nat) (m : Fmap) (h : mapWF m) :
    mapWF (mapAdd k v m) := by
  induction m with
  | nil => simp [mapWF, mapAdd]
  | cons kv rest ih =>
      obtain ⟨k0, v0⟩ := kv
      simp only [mapWF, List.map_cons, List.nodup_cons] at h
      by_cases h0 : k0 = k
      · subst h0
        simp only [mapAdd, if_pos rfl]
        simpa [mapWF] using h
      · have hrest := ih h.2
        simp only [mapAdd, if_neg h0]
        simp only [mapWF, List.map_cons, List.nodup_cons]
        refine ⟨?_, hrest⟩
        rw [mem_keys_mapAdd]
        rintro (hk | hk)
        · exact h.1 hk
        · exact h0 hk

theorem mapWF_mapSet (k : Str) (v : Nat) (m : Fmap) (h : mapWF m) :
    mapWF (mapSet k v m) := by
  induction m with
  | nil => simp [mapWF, mapSet]
  | cons kv rest ih =>
      obtain ⟨k0, v0⟩ := kv
      simp only [mapWF, List.map_cons, List.nodup_cons] at h
      by_cases h0 : k0 = k
      · subst h0
        simp only [mapSet, if_pos rfl]
        simpa [mapWF] using h
      · have hrest := ih h.2
        simp only [mapSet, if_neg h0]
        simp only [mapWF, List.map_cons, List.nodup_cons]
        refine ⟨?_, hrest⟩
        rw [mem_keys_mapSet]
        rintro (hk | hk)
        · exact h.1 hk
        · exact h0 hk

theorem valD_eq_zero_of_not_mem (k : Str) (m : Fmap) (h : k ∉ m.map Prod.fst) :
    valD m k = 0 := by
  rw [valD, (mapLookup_eq_none_iff k m).2 h]
  rfl

theorem valD_cons_of_wf (k0 k : Str) (v0 : Nat) (rest : Fmap)
    (h : mapWF ((k0, v0) :: rest)) :
    valD ((k0, v0) :: rest) k = (if k = k0 then v0 else 0) + valD rest k := by
  simp only [mapWF, List.map_cons, List.nodup_cons] at h
  by_cases hk : k = k0
  · subst hk
    rw [valD_eq_zero_of_not_mem k rest h.1]
    simp [valD, mapLookup]
  · have : k0 ≠ k := fun e => hk e.symm
    simp [valD, mapLookup, this, hk]

/-! ### Merge lemmas -/

theorem valD_mergeInto (sub : Fmap) (hsub : mapWF sub) (acc : Fmap) (k : Str) :
    valD (mergeInto acc sub) k = valD acc k + valD sub k := by
  induction sub generalizing acc with
  | nil => simp [mergeInto, valD, mapLookup]
  | cons kv rest ih =>
      obtain ⟨k0, v0⟩ := kv
      have hwf : mapWF rest := by
        simpa [mapWF] using ((List.nodup_cons.1 (by simpa [mapWF] using hsub)).2)
      have hrec : mergeInto acc ((k0, v0) :: rest) = mergeInto (mapAdd k0 v0 acc) rest := rfl
      rw [hrec, ih hwf, valD_mapAdd, valD_cons_of_wf k0 k v0 rest hsub]
      by_cases hk : k = k0
      · simp only [hk, if_pos rfl]
        omega
      · simp only [hk, if_neg hk]
        omega

theorem mapWF_mergeInto (sub acc : Fmap) (hacc : mapWF acc) :
    mapWF (mergeInto acc sub) := by
  induction sub generalizing acc with
  | nil => simpa [mergeInto]
  | cons kv rest ih =>
      have hrec : mergeInto acc (kv :: rest) = mergeInto (mapAdd kv.1 kv.2 acc) rest := rfl
      rw [hrec]
      exact ih _ (mapWF_mapAdd _ _ _ hacc)

/-! ### The n-gram recursion records exactly the sliding windows -/

theorem applyGrams_nil (st : LocalState) : applyGrams [] st = st := rfl

theorem applyGrams_cons (g : Str) (gs : List Str) (st : LocalState) :
    applyGrams (g :: gs) st = applyGrams gs (noteGram g st) := rfl

theorem applyGrams_append (a b : List Str) (st : LocalState) :
    applyGrams (a ++ b) st = applyGrams b (applyGrams a st) := by
  simp [applyGrams, List.foldl_append]

theorem retrieve_n_gram_eq (n : Nat) (hn : 1 ≤ n) (toks : List Str) (st : LocalState) :
    retrieve_n_gram n toks st = some (applyGrams (windowGrams n toks) st) := by
  induction toks generalizing st with
  | nil =>
      have h : ¬ n = 0 := by omega
      have heq : retrieve_n_gram n [] st = if n = 0 then none else some st := rfl
      rw [heq, if_neg h, windowGrams, applyGrams_nil]
  | cons t rest ih =>
      have heq : retrieve_n_gram n (t :: rest) st =
          if n ≤ (t :: rest).length then
            retrieve_n_gram n rest (noteGram (joinGram n (t :: rest)) st)
          else some st := rfl
      rw [heq]
      by_cases h : n ≤ (t :: rest).length
      · rw [if_pos h, windowGrams, if_pos h, applyGrams_cons]
        exact ih _
      · rw [if_neg h, windowGrams, if_neg h, applyGrams_nil]

theorem applyGrams_local_freq (gs : List Str) (st : LocalState) :
    (applyGrams gs st).local_freq = st.local_freq := by
  induction gs generalizing st with
  | nil => rfl
  | cons g gs ih => simpa [applyGrams_cons, noteGram] using ih (noteGram g st)

theorem applyGrams_prints (gs : List Str) (st : LocalState) :
    (applyGrams gs st).prints = st.prints ++ gs := by
  induction gs generalizing st with
  | nil => simp [applyGrams_nil]
  | cons g gs ih =>
      rw [applyGrams_cons, ih]
      simp [noteGram]

theorem valD_applyGrams (gs : List Str) (st : LocalState) (g : Str) :
    valD (applyGrams gs st).ngram_freq g = valD st.ngram_freq g + gs.count g := by
  induction gs generalizing st with
  | nil => simp [applyGrams_nil]
  | cons g0 gs ih =>
      rw [applyGrams_cons, ih]
      simp only [noteGram]
      rw [valD_mapAdd]
      rw [List.count_cons]
      by_cases h : g = g0
      · subst h; simp; omega
      · have h' : ¬ g0 = g := fun e => h e.symm
        simp [h, h']

theorem NGInv_initLS : NGInv initLS := by
  refine ⟨List.nodup_nil, ?_, ?_⟩
  · intro g; simp [initLS, mapLookup]
  · simp [initLS, mapWF]

theorem NGInv_noteGram (g : Str) (st : LocalState) (h : NGInv st) : NGInv (noteGram g st) := by
  obtain ⟨hnd, hmem, hwf⟩ := h
  refine ⟨?_, ?_, mapWF_mapAdd _ _ _ hwf⟩
  · simp only [noteGram]
    by_cases hl : mapLookup g st.ngram_freq = none
    · have hg : g ∉ st.ngrams := fun hgmem => ((hmem g).1 hgmem) hl
      simp only [if_pos hl]
      rw [List.nodup_append]
      exact ⟨hnd, List.nodup_singleton g, by
        intro a ha hb
        rw [List.mem_singleton] at hb
        subst hb
        exact hg ha⟩
    · simpa [hl] using hnd
  · intro a
    have hadd : mapLookup a (mapAdd g 1 st.ngram_freq) ≠ none ↔
        (a = g ∨ mapLookup a st.ngram_freq ≠ none) := by
      rw [mapLookup_mapAdd]
      by_cases ha : a = g
      · simp [ha]
      · simp [ha]
    simp only [noteGram]
    by_cases hl : mapLookup g st.ngram_freq = none
    · rw [if_pos hl, hadd]
      rw [List.mem_append, List.mem_singleton]
      rw [hmem a]
      tauto
    · rw [if_neg hl, hadd]
      rw [hmem a]
      constructor
      · intro h'
        exact Or.inr h'
      · rintro (h' | h')
        · subst h'
          exact hl
        · exact h'

theorem NGInv_applyGrams (gs : List Str) (st : LocalState) (h : NGInv st) :
    NGInv (applyGrams gs st) := by
  induction gs generalizing st with
  | nil => simpa [applyGrams_nil]
  | cons g gs ih => exact ih _ (NGInv_noteGram g st h)

/-! ### process_file, sweep and compute reduce to their pure mirrors -/

theorem goSentences_eq (n : Nat) (hn : 1 ≤ n) (sents : List Str) (st : LocalState) :
    goSentences n sents st =
      some (applyGrams ((sents.map (fun s => windowGrams n (sentenceTokens s))).flatten) st) := by
  induction sents generalizing st with
  | nil => simp [goSentences, applyGrams_nil]
  | cons s rest ih =>
      simp only [goSentences, retrieve_n_gram_eq n hn, Option.some_bind]
      rw [ih]
      simp [applyGrams_append]

theorem process_file_eq (n : Nat) (hn : 1 ≤ n) (f : Option Str) (st : LocalState) :
    process_file n f st = some (processFileP n f st) := by
  simp only [process_file, processFileP, windowsOfContents]
  rw [goSentences_eq n hn]
  simp

theorem sweepFiles_eq (n : Nat) (hn : 1 ≤ n) (files : List (Option Str)) (st : LocalState) :
    sweepFiles n files st = some (files.foldl (fun st f => processFileP n f st) st) := by
  induction files generalizing st with
  | nil => simp [sweepFiles]
  | cons f fs ih =>
      simp only [sweepFiles, process_file_eq n hn, Option.some_bind]
      rw [ih]
      simp

theorem sweep_eq (hashF : Str → Nat) (n nw : Nat) (files : List (Option Str))
    (hn : 1 ≤ n) (hw : 1 ≤ nw) :
    sweep hashF n nw files = some (sweepP hashF n nw files) := by
  have hnw : ¬ (nw = 0) := by omega
  simp only [sweep, sweepFiles_eq n hn, Option.some_bind, sweepP, sweepLocalP]
  simp [hnw]

theorem mapOption_of_some {α β : Type} (f : α → Option β) (g : α → β)
    (h : ∀ a, f a = some (g a)) (l : List α) : mapOption f l = some (l.map g) := by
  induction l with
  | nil => rfl
  | cons a l ih => simp [mapOption, h a, ih]

theorem compute_eq (hashF : Str → Nat) (n nw : Nat) (files : List (Option Str))
    (hn : 1 ≤ n) (hw : 1 ≤ nw) :
    compute hashF n nw files = some (computeP hashF n nw files) := by
  have hnw : ¬ (nw = 0) := by omega
  simp only [compute, if_neg hnw]
  rw [mapOption_of_some (sweep hashF n nw) (sweepP hashF n nw)
    (fun fs => sweep_eq hashF n nw fs hn hw)]
  simp [computeP]

/-! ### Vector update and the group-by loop -/

theorem setAt_length (l : List α) (t : Nat) (g : α → α) : (setAt l t g).length = l.length := by
  induction l generalizing t with
  | nil => rfl
  | cons x xs ih =>
      cases t with
      | zero => rfl
      | succ t => simpa [setAt] using ih t

theorem setAt_getD_same (l : List α) (t : Nat) (g : α → α) (d : α) (h : t < l.length) :
    (setAt l t g).getD t d = g (l.getD t d) := by
  induction l generalizing t with
  | nil => simp at h
  | cons x xs ih =>
      cases t with
      | zero => rfl
      | succ t => simpa [setAt] using ih t (by simpa using h)

theorem setAt_getD_other (l : List α) (t j : Nat) (g : α → α) (d : α) (h : j ≠ t) :
    (setAt l t g).getD j d = l.getD j d := by
  induction l generalizing t j with
  | nil => rfl
  | cons x xs ih =>
      cases t with
      | zero =>
          cases j with
          | zero => exact absurd rfl h
          | succ j => simp [setAt]
      | succ t =>
          cases j with
          | zero => simp [setAt]
          | succ j => simpa [setAt] using ih t j (fun e => h (by omega))

theorem getD_replicate_self (n j : Nat) (a : α) : (List.replicate n a).getD j a = a := by
  induction n generalizing j with
  | zero => simp
  | succ n ih =>
      cases j with
      | zero => simp
      | succ j =>
          simp only [List.replicate, List.getD_cons_succ]
          exact ih j

theorem groupGo_length (hashF : Str → Nat) (nw : Nat) (freqM : Fmap) (grams : List Str)
    (acc : List Fmap) :
    (grams.foldl (fun gs g' => setAt gs (hashF g' % nw) (mapSet g' (valD freqM g'))) acc).length
      = acc.length := by
  induction grams generalizing acc with
  | nil => rfl
  | cons g0 gs ih =>
      simp only [List.foldl_cons]
      rw [ih _]
      exact setAt_length _ _ _

theorem groupGo_lookup (hashF : Str → Nat) (nw : Nat) (freqM : Fmap) (g : Str) (j : Nat)
    (hj : j < nw) (grams : List Str) :
    ∀ acc : List Fmap, grams.Nodup → acc.length = nw →
      mapLookup g ((grams.foldl
          (fun gs g' => setAt gs (hashF g' % nw) (mapSet g' (valD freqM g'))) acc).getD j []) =
        if g ∈ grams ∧ hashF g % nw = j then some (valD freqM g)
        else mapLookup g (acc.getD j []) := by
  have hnw : 0 < nw := Nat.lt_of_le_of_lt (Nat.zero_le j) hj
  induction grams with
  | nil =>
      intro acc _ _
      simp
  | cons g0 gs ih =>
      intro acc hnd hlen
      have hnd' := (List.nodup_cons.1 hnd).2
      have hg0 : g0 ∉ gs := (List.nodup_cons.1 hnd).1
      have hlen' : (setAt acc (hashF g0 % nw) (mapSet g0 (valD freqM g0))).length = nw := by
        rw [setAt_length]; exact hlen
      simp only [List.foldl_cons]
      rw [ih _ hnd' hlen']
      by_cases hgg0 : g = g0
      · subst hgg0
        rw [if_neg (fun hc => hg0 hc.1)]
        by_cases hjj : hashF g % nw = j
        · rw [if_pos ⟨List.mem_cons_self g gs, hjj⟩]
          rw [hjj]
          rw [setAt_getD_same _ _ _ _ (by rw [hlen]; exact hj)]
          rw [mapLookup_mapSet, if_pos rfl]
        · rw [if_neg (fun hc => hjj hc.2)]
          rw [setAt_getD_other _ _ _ _ _ (fun e => hjj e.symm)]
      · have hcond : (g ∈ g0 :: gs ∧ hashF g % nw = j) ↔ (g ∈ gs ∧ hashF g % nw = j) := by
          simp [List.mem_cons, hgg0]
        by_cases hin : g ∈ gs ∧ hashF g % nw = j
        · rw [if_pos hin, if_pos (hcond.mpr hin)]
        · rw [if_neg hin, if_neg (fun hc => hin (hcond.mp hc))]
          by_cases hjo : j = hashF g0 % nw
          · rw [hjo, setAt_getD_same _ _ _ _ (by rw [hlen]; exact Nat.mod_lt _ hnw)]
            rw [mapLookup_mapSet, if_neg hgg0]
          · rw [setAt_getD_other _ _ _ _ _ hjo]

theorem group_by_thread_length (hashF : Str → Nat) (nw : Nat) (grams : List Str)
    (freqM : Fmap) : (group_by_thread hashF nw grams freqM).length = nw := by
  rw [group_by_thread, groupGo_length]
  exact List.length_replicate nw []

theorem group_by_thread_lookup (hashF : Str → Nat) (nw : Nat) (grams : List Str)
    (freqM : Fmap) (g : Str) (j : Nat) (hnd : grams.Nodup) (hj : j < nw) :
    mapLookup g ((group_by_thread hashF nw grams freqM).getD j []) =
      if g ∈ grams ∧ hashF g % nw = j then some (valD freqM g) else none := by
  rw [group_by_thread, groupGo_lookup hashF nw freqM g j hj grams _ hnd
    (List.length_replicate nw [])]
  rw [getD_replicate_self]
  rfl

theorem groupGo_wf (hashF : Str → Nat) (nw : Nat) (freqM : Fmap) (hnw : 0 < nw)
    (grams : List Str) :
    ∀ acc : List Fmap, acc.length = nw → (∀ j, mapWF (acc.getD j [])) →
      ∀ j, mapWF ((grams.foldl
        (fun gs g' => setAt gs (hashF g' % nw) (mapSet g' (valD freqM g'))) acc).getD j []) := by
  induction grams with
  | nil =>
      intro acc _ hacc j
      simpa using hacc j
  | cons g0 gs ih =>
      intro acc hlen hacc j
      simp only [List.foldl_cons]
      refine ih _ (by rw [setAt_length]; exact hlen) ?_ j
      intro j'
      by_cases hjo : j' = hashF g0 % nw
      · rw [hjo, setAt_getD_same _ _ _ _ (by rw [hlen]; exact Nat.mod_lt _ hnw)]
        exact mapWF_mapSet _ _ _ (hacc _)
      · rw [setAt_getD_other _ _ _ _ _ hjo]
        exact hacc j'

theorem group_by_thread_wf (hashF : Str → Nat) (nw : Nat) (grams : List Str)
    (freqM : Fmap) (hnw : 0 < nw) (j : Nat) :
    mapWF ((group_by_thread hashF nw grams freqM).getD j []) := by
  rw [group_by_thread]
  refine groupGo_wf hashF nw freqM hnw grams _ (List.length_replicate nw []) ?_ j
  intro j'
  rw [getD_replicate_self]
  simp [mapWF]

/-! ### Sum helpers -/

theorem listRangeMapSum (f : Nat → Nat) (n : Nat) :
    ((List.range n).map f).sum = ∑ i ∈ Finset.range n, f i := by
  induction n with
  | zero => simp
  | succ n ih => rw [List.range_succ]; simp [ih, Finset.sum_range_succ]

theorem group_by_thread_sum (hashF : Str → Nat) (nw : Nat) (grams : List Str)
    (freqM : Fmap) (g : Str) (hnd : grams.Nodup) (hnw : 1 ≤ nw) :
    ((List.range nw).map
        (fun j => valD ((group_by_thread hashF nw grams freqM).getD j []) g)).sum =
      if g ∈ grams then valD freqM g else 0 := by
  rw [listRangeMapSum]
  have hval : ∀ j ∈ Finset.range nw,
      valD ((group_by_thread hashF nw grams freqM).getD j []) g =
        if g ∈ grams ∧ hashF g % nw = j then valD freqM g else 0 := by
    intro j hj
    rw [valD, group_by_thread_lookup hashF nw grams freqM g j hnd (Finset.mem_range.1 hj)]
    by_cases hc : g ∈ grams ∧ hashF g % nw = j
    · rw [if_pos hc, if_pos hc]; rfl
    · rw [if_neg hc, if_neg hc]; rfl
  rw [Finset.sum_congr rfl hval]
  by_cases hg : g ∈ grams
  · simp only [hg, true_and]
    rw [Finset.sum_ite_eq (Finset.range nw) (hashF g % nw) (fun _ => valD freqM g)]
    simp [Finset.mem_range.2 (Nat.mod_lt (hashF g) (by omega : 0 < nw))]
  · simp [hg]

/-! ### The round-robin file partition -/

theorem assignGo_length (nw i : Nat) (files : List α) (parts : List (List α)) :
    (assignGo nw i files parts).length = parts.length := by
  induction files generalizing i parts with
  | nil => rfl
  | cons f fs ih =>
      simp only [assignGo]
      rw [ih (i + 1) _]
      exact setAt_length _ _ _

theorem assignFiles_length (nw : Nat) (files : List α) :
    (assignFiles nw files).length = nw := by
  rw [assignFiles, assignGo_length]
  exact List.length_replicate nw []

theorem partsSum_setAt_append (c : α → Nat) (parts : List (List α)) (t : Nat) (f : α)
    (ht : t < parts.length) :
    ((setAt parts t (fun p => p ++ [f])).map (fun p => (p.map c).sum)).sum =
      ((parts.map (fun p => (p.map c).sum)).sum) + c f := by
  induction parts generalizing t with
  | nil => simp at ht
  | cons p ps ih =>
      cases t with
      | zero =>
          simp only [setAt, List.map_cons, List.sum_cons, List.map_append, List.sum_append]
          simp
          omega
      | succ t =>
          simp only [setAt, List.map_cons, List.sum_cons]
          rw [ih t (by simpa using ht)]
          omega

theorem assignGo_sum (c : α → Nat) (nw : Nat) (hnw : 1 ≤ nw) (files : List α) :
    ∀ (i : Nat) (parts : List (List α)), parts.length = nw →
      ((assignGo nw i files parts).map (fun p => (p.map c).sum)).sum =
        (parts.map (fun p => (p.map c).sum)).sum + (files.map c).sum := by
  induction files with
  | nil =>
      intro i parts _
      simp [assignGo]
  | cons f fs ih =>
      intro i parts hlen
      simp only [assignGo]
      rw [ih (i + 1) _ (by rw [setAt_length]; exact hlen)]
      rw [partsSum_setAt_append c parts (i % nw) f
        (by rw [hlen]; exact Nat.mod_lt _ (by omega))]
      simp only [List.map_cons, List.sum_cons]
      omega

theorem assignFiles_sum (c : α → Nat) (nw : Nat) (hnw : 1 ≤ nw) (files : List α) :
    ((assignFiles nw files).map (fun p => (p.map c).sum)).sum = (files.map c).sum := by
  rw [assignFiles, assignGo_sum c nw hnw files 0 _ (List.length_replicate nw [])]
  simp [List.map_replicate]

/-! ### Per-worker counting facts -/

theorem processFileP_local_freq (n : Nat) (f : Option Str) (st : LocalState) :
    (processFileP n f st).local_freq =
      (fileWordTokens (normalize (f.getD []))).foldl (fun m t => mapAdd t 1 m)
        st.local_freq := by
  simp [processFileP, applyGrams_local_freq]

theorem processFileP_ngram_freq (n : Nat) (f : Option Str) (st : LocalState) :
    (processFileP n f st).ngram_freq =
      (applyGrams (windowsOfContents n (normalize (f.getD []))) st).ngram_freq := rfl

theorem processFileP_valD_ngram (n : Nat) (f : Option Str) (st : LocalState) (g : Str) :
    valD (processFileP n f st).ngram_freq g =
      valD st.ngram_freq g + fileOccurrences n (f.getD []) g := by
  rw [processFileP_ngram_freq, valD_applyGrams]
  rfl

theorem processFileP_prints (n : Nat) (f : Option Str) (st : LocalState) :
    (processFileP n f st).prints =
      st.prints ++ windowsOfContents n (normalize (f.getD [])) := by
  have h : (processFileP n f st).prints =
      (applyGrams (windowsOfContents n (normalize (f.getD []))) st).prints := rfl
  rw [h, applyGrams_prints]

theorem processFileP_NGInv (n : Nat) (f : Option Str) (st : LocalState) (h : NGInv st) :
    NGInv (processFileP n f st) :=
  NGInv_applyGrams (windowsOfContents n (normalize (f.getD []))) st h

theorem sweepFoldP_valD_ngram (n : Nat) (files : List (Option Str)) :
    ∀ (st : LocalState) (g : Str),
      valD ((files.foldl (fun st f => processFileP n f st) st)).ngram_freq g =
        valD st.ngram_freq g +
          (files.map (fun f => fileOccurrences n (f.getD []) g)).sum := by
  induction files with
  | nil => intro st g; simp
  | cons f fs ih =>
      intro st g
      simp only [List.foldl_cons, List.map_cons, List.sum_cons]
      rw [ih, processFileP_valD_ngram]
      omega

theorem sweepLocalP_valD_ngram (n : Nat) (files : List (Option Str)) (g : Str) :
    valD (sweepLocalP n files).ngram_freq g =
      (files.map (fun f => fileOccurrences n (f.getD []) g)).sum := by
  rw [sweepLocalP, sweepFoldP_valD_ngram]
  simp [initLS, valD, mapLookup]

theorem sweepFoldP_NGInv (n : Nat) (files : List (Option Str)) :
    ∀ st : LocalState, NGInv st →
      NGInv (files.foldl (fun st f => processFileP n f st) st) := by
  induction files with
  | nil => intro st h; simpa using h
  | cons f fs ih =>
      intro st h
      simp only [List.foldl_cons]
      exact ih _ (processFileP_NGInv n f st h)

theorem sweepLocalP_NGInv (n : Nat) (files : List (Option Str)) :
    NGInv (sweepLocalP n files) :=
  sweepFoldP_NGInv n files initLS NGInv_initLS

theorem sweepFoldP_prints (n : Nat) (files : List (Option Str)) :
    ∀ st : LocalState,
      (files.foldl (fun st f => processFileP n f st) st).prints =
        st.prints ++
          (files.map (fun f => windowsOfContents n (normalize (f.getD [])))).flatten := by
  induction files with
  | nil => intro st; simp
  | cons f fs ih =>
      intro st
      simp only [List.foldl_cons, List.map_cons, List.flatten_cons]
      rw [ih, processFileP_prints, List.append_assoc]

theorem sweepLocalP_prints (n : Nat) (files : List (Option Str)) :
    (sweepLocalP n files).prints =
      (files.map (fun f => windowsOfContents n (normalize (f.getD [])))).flatten := by
  rw [sweepLocalP, sweepFoldP_prints]
  simp [initLS]

theorem foldl_mapAdd_valD (toks : List Str) :
    ∀ (m : Fmap) (w : Str),
      valD (toks.foldl (fun m t => mapAdd t 1 m) m) w = valD m w + toks.count w := by
  induction toks with
  | nil => intro m w; simp
  | cons t ts ih =>
      intro m w
      simp only [List.foldl_cons]
      rw [ih, valD_mapAdd, List.count_cons]
      by_cases h : w = t
      · subst h
        simp
        omega
      · have h' : ¬ t = w := fun e => h e.symm
        simp [h, h']

theorem foldl_mapAdd_wf (toks : List Str) :
    ∀ m : Fmap, mapWF m → mapWF (toks.foldl (fun m t => mapAdd t 1 m) m) := by
  induction toks with
  | nil => intro m h; simpa using h
  | cons t ts ih =>
      intro m h
      simp only [List.foldl_cons]
      exact ih _ (mapWF_mapAdd _ _ _ h)

theorem sweepFoldP_local_valD (n : Nat) (files : List (Option Str)) :
    ∀ (st : LocalState) (w : Str),
      valD ((files.foldl (fun st f => processFileP n f st) st)).local_freq w =
        valD st.local_freq w +
          (files.map (fun f => fileWordCount (f.getD []) w)).sum := by
  induction files with
  | nil => intro st w; simp
  | cons f fs ih =>
      intro st w
      simp only [List.foldl_cons, List.map_cons, List.sum_cons]
      rw [ih, processFileP_local_freq, foldl_mapAdd_valD]
      have h : fileWordCount (f.getD []) w =
          (fileWordTokens (normalize (f.getD []))).count w := rfl
      omega

theorem sweepLocalP_local_valD (n : Nat) (files : List (Option Str)) (w : Str) :
    valD (sweepLocalP n files).local_freq w =
      (files.map (fun f => fileWordCount (f.getD []) w)).sum := by
  rw [sweepLocalP, sweepFoldP_local_valD]
  simp [initLS, valD, mapLookup]

theorem sweepFoldP_local_wf (n : Nat) (files : List (Option Str)) :
    ∀ st : LocalState, mapWF st.local_freq →
      mapWF (files.foldl (fun st f => processFileP n f st) st).local_freq := by
  induction files with
  | nil => intro st h; simpa using h
  | cons f fs ih =>
      intro st h
      simp only [List.foldl_cons]
      refine ih _ ?_
      rw [processFileP_local_freq]
      exact foldl_mapAdd_wf _ _ h

theorem sweepLocalP_local_wf (n : Nat) (files : List (Option Str)) :
    mapWF (sweepLocalP n files).local_freq := by
  refine sweepFoldP_local_wf n files initLS ?_
  simp [initLS, mapWF]

theorem sweepFoldP_local_freq_indep (n n' : Nat) (files : List (Option Str)) :
    ∀ st st' : LocalState, st.local_freq = st'.local_freq →
      (files.foldl (fun st f => processFileP n f st) st).local_freq =
        (files.foldl (fun st f => processFileP n' f st) st').local_freq := by
  induction files with
  | nil => intro st st' h; simpa using h
  | cons f fs ih =>
      intro st st' h
      simp only [List.foldl_cons]
      refine ih _ _ ?_
      rw [processFileP_local_freq, processFileP_local_freq, h]

theorem sweepLocalP_local_freq_indep (n n' : Nat) (files : List (Option Str)) :
    (sweepLocalP n files).local_freq = (sweepLocalP n' files).local_freq :=
  sweepFoldP_local_freq_indep n n' files initLS initLS rfl

/-! ### compute-level facts -/

theorem foldl_mergeInto_outs_valD (outs : List SweepOut) :
    (∀ o ∈ outs, mapWF o.local_freq) → ∀ (acc : Fmap) (w : Str),
      valD (outs.foldl (fun acc o => mergeInto acc o.local_freq) acc) w =
        valD acc w + (outs.map (fun o => valD o.local_freq w)).sum := by
  induction outs with
  | nil => intro _ acc w; simp
  | cons o os ih =>
      intro h acc w
      simp only [List.foldl_cons, List.map_cons, List.sum_cons]
      rw [ih (fun o' ho' => h o' (List.mem_cons_of_mem o ho'))]
      rw [valD_mergeInto _ (h o (List.mem_cons_self o os))]
      omega

theorem foldl_mergeInto_maps_valD (subs : List Fmap) :
    (∀ m ∈ subs, mapWF m) → ∀ (acc : Fmap) (k : Str),
      valD (subs.foldl mergeInto acc) k =
        valD acc k + (subs.map (fun m => valD m k)).sum := by
  induction subs with
  | nil => intro _ acc k; simp
  | cons m ms ih =>
      intro h acc k
      simp only [List.foldl_cons, List.map_cons, List.sum_cons]
      rw [ih (fun m' hm' => h m' (List.mem_cons_of_mem m hm'))]
      rw [valD_mergeInto _ (h m (List.mem_cons_self m ms))]
      omega

theorem valD_reduceMaps (subs : List Fmap) (h : ∀ m ∈ subs, mapWF m) (k : Str) :
    valD (reduceMaps subs) k = (subs.map (fun m => valD m k)).sum := by
  rw [reduceMaps, foldl_mergeInto_maps_valD subs h]
  simp [valD, mapLookup]

theorem computeP_publications (hashF : Str → Nat) (n nw : Nat)
    (files : List (Option Str)) :
    (computeP hashF n nw files).publications =
      (assignFiles nw files).map (fun fs => (sweepP hashF n nw fs).groups) := by
  simp [computeP, List.map_map]

theorem computeP_freq_valD (hashF : Str → Nat) (n nw : Nat) (files : List (Option Str))
    (hnw : 1 ≤ nw) (w : Str) :
    valD (computeP hashF n nw files).freq w = totalWordCount files w := by
  have hfreq : (computeP hashF n nw files).freq =
      ((assignFiles nw files).map (sweepP hashF n nw)).foldl
        (fun acc o => mergeInto acc o.local_freq) [] := rfl
  rw [hfreq]
  rw [foldl_mergeInto_outs_valD _ ?wf [] w]
  case wf =>
    intro o ho
    obtain ⟨fs, _, rfl⟩ := List.mem_map.1 ho
    exact sweepLocalP_local_wf n fs
  have hmaps : (((assignFiles nw files).map (sweepP hashF n nw)).map
        (fun o => valD o.local_freq w)) =
      ((assignFiles nw files).map
        (fun fs => ((fs.map (fun f => fileWordCount (f.getD []) w)).sum))) := by
    rw [List.map_map]
    refine List.map_congr_left ?_
    intro fs _
    exact sweepLocalP_local_valD n fs w
  rw [hmaps, assignFiles_sum _ nw hnw]
  have h0 : valD [] w = 0 := rfl
  rw [h0, Nat.zero_add]
  simp only [totalWordCount]

theorem getD_map_of_lt (f : α → β) (l : List α) (i : Nat) (d : β) (d' : α)
    (h : i < l.length) : (l.map f).getD i d = f (l.getD i d') := by
  induction l generalizing i with
  | nil => simp at h
  | cons x xs ih =>
      cases i with
      | zero => rfl
      | succ i => simpa using ih i (by simpa using h)

theorem range_getD_map_sum (l : List α) (d : α) (h : α → Nat) :
    ((List.range l.length).map (fun i => h (l.getD i d))).sum = (l.map h).sum := by
  induction l with
  | nil => simp
  | cons x xs ih =>
      rw [List.length_cons, List.range_succ_eq_map]
      simp only [List.map_cons, List.map_map, List.sum_cons]
      have hcomp : ((fun i => h ((x :: xs).getD i d)) ∘ Nat.succ) =
          (fun i => h (xs.getD i d)) := by
        funext i
        simp
      rw [hcomp, ih]
      simp

theorem worker_group_sum (hashF : Str → Nat) (n nw : Nat) (fs : List (Option Str))
    (hnw : 1 ≤ nw) (g : Str) :
    ((List.range nw).map (fun j => valD ((sweepP hashF n nw fs).groups.getD j []) g)).sum =
      valD (sweepLocalP n fs).ngram_freq g := by
  have hInv := sweepLocalP_NGInv n fs
  have hgroups : (sweepP hashF n nw fs).groups =
      group_by_thread hashF nw (sweepLocalP n fs).ngrams (sweepLocalP n fs).ngram_freq := rfl
  rw [hgroups, group_by_thread_sum _ _ _ _ _ hInv.1 hnw]
  by_cases hg : g ∈ (sweepLocalP n fs).ngrams
  · rw [if_pos hg]
  · rw [if_neg hg]
    have hnone : mapLookup g (sweepLocalP n fs).ngram_freq = none := by
      by_contra hc
      exact hg ((hInv.2.1 g).2 hc)
    rw [valD, hnone]
    rfl

theorem range_sum_swap (m n : Nat) (a : Nat → Nat → Nat) :
    ((List.range m).map (fun i => ((List.range n).map (fun j => a i j)).sum)).sum =
      ((List.range n).map (fun j => ((List.range m).map (fun i => a i j)).sum)).sum := by
  simp only [listRangeMapSum]
  exact Finset.sum_comm

theorem conservation_core (hashF : Str → Nat) (n nw : Nat) (files : List (Option Str))
    (g : Str) (hw : 1 ≤ nw) :
    ((List.range nw).map (fun j =>
        valD (reduceMaps (receivedOf (computeP hashF n nw files) nw j)) g)).sum =
      totalOccurrences n files g := by
  have hpub : ∀ i, i < nw →
      (computeP hashF n nw files).publications.getD i [] =
        (sweepP hashF n nw ((assignFiles nw files).getD i [])).groups := by
    intro i hi
    rw [computeP_publications]
    exact getD_map_of_lt _ _ i [] [] (by rw [assignFiles_length]; exact hi)
  have hrm : ∀ j, valD (reduceMaps (receivedOf (computeP hashF n nw files) nw j)) g =
      ((List.range nw).map (fun i =>
        valD (((computeP hashF n nw files).publications.getD i []).getD j []) g)).sum := by
    intro j
    rw [valD_reduceMaps]
    · rw [receivedOf, List.map_map]
      rfl
    · intro m hm
      rw [receivedOf] at hm
      obtain ⟨i, hi, rfl⟩ := List.mem_map.1 hm
      rw [hpub i (List.mem_range.1 hi)]
      exact group_by_thread_wf _ _ _ _ (by omega) j
  have h1 : ((List.range nw).map (fun j =>
      valD (reduceMaps (receivedOf (computeP hashF n nw files) nw j)) g)).sum =
      ((List.range nw).map (fun j => ((List.range nw).map (fun i =>
        valD (((computeP hashF n nw files).publications.getD i []).getD j []) g)).sum)).sum := by
    refine congrArg List.sum (List.map_congr_left ?_)
    intro j _
    exact hrm j
  have h2 := range_sum_swap nw nw (fun j i =>
    valD (((computeP hashF n nw files).publications.getD i []).getD j []) g)
  have h3 : ((List.range nw).map (fun i => ((List.range nw).map (fun j =>
      valD (((computeP hashF n nw files).publications.getD i []).getD j []) g)).sum)).sum =
      ((List.range nw).map (fun i =>
        (((assignFiles nw files).getD i []).map
          (fun f => fileOccurrences n (f.getD []) g)).sum)).sum := by
    refine congrArg List.sum (List.map_congr_left ?_)
    intro i hi
    have hp := hpub i (List.mem_range.1 hi)
    simp only [hp]
    rw [worker_group_sum hashF n nw _ hw g]
    exact sweepLocalP_valD_ngram n _ g
  have h4 : ((List.range nw).map (fun i =>
      (((assignFiles nw files).getD i []).map
        (fun f => fileOccurrences n (f.getD []) g)).sum)).sum =
      ((assignFiles nw files).map (fun p =>
        (p.map (fun f => fileOccurrences n (f.getD []) g)).sum)).sum := by
    have hr : List.range nw = List.range (assignFiles nw files).length := by
      rw [assignFiles_length]
    rw [hr]
    exact range_getD_map_sum (assignFiles nw files) []
      (fun p => (p.map (fun f => fileOccurrences n (f.getD []) g)).sum)
  rw [h1, h2, h3, h4, assignFiles_sum _ nw hw files]
  rfl

/-! ### The display sort -/

theorem ltKey_asymm (a : Str) : ∀ b : Str, ltKey a b = true → ltKey b a = false := by
  induction a with
  | nil =>
      intro b h
      cases b with
      | nil => simp [ltKey] at h
      | cons y ys => simp [ltKey]
  | cons x xs ih =>
      intro b h
      cases b with
      | nil => simp [ltKey] at h
      | cons y ys =>
          simp only [ltKey, Bool.or_eq_true, Bool.and_eq_true, decide_eq_true_eq] at h
          simp only [ltKey, Bool.or_eq_false_iff, Bool.and_eq_false_iff,
            decide_eq_false_iff_not]
          rcases h with hlt | ⟨heq, hk⟩
          · constructor
            · omega
            · left; omega
          · subst heq
            constructor
            · omega
            · right; exact ih ys hk

theorem cmpPair_asymm (p q : Str × Nat) (h : cmpPair p q = true) : cmpPair q p = false := by
  simp only [cmpPair, Bool.or_eq_true, Bool.and_eq_true, decide_eq_true_eq] at h
  simp only [cmpPair, Bool.or_eq_false_iff, Bool.and_eq_false_iff,
    decide_eq_false_iff_not]
  rcases h with hlt | ⟨heq, hk⟩
  · constructor
    · omega
    · left; omega
  · constructor
    · omega
    · right; exact ltKey_asymm p.1 q.1 hk

theorem ltKey_trans (a : Str) :
    ∀ b c : Str, ltKey a b = true → ltKey b c = true → ltKey a c = true := by
  induction a with
  | nil =>
      intro b c hab hbc
      cases c with
      | nil =>
          cases b with
          | nil => simp [ltKey] at hab
          | cons y ys => simp [ltKey] at hbc
      | cons z zs => simp [ltKey]
  | cons x xs ih =>
      intro b c hab hbc
      cases b with
      | nil => simp [ltKey] at hab
      | cons y ys =>
          cases c with
          | nil => simp [ltKey] at hbc
          | cons z zs =>
              simp only [ltKey, Bool.or_eq_true, Bool.and_eq_true,
                decide_eq_true_eq] at hab hbc ⊢
              rcases hab with h1 | ⟨e1, k1⟩ <;> rcases hbc with h2 | ⟨e2, k2⟩
              · exact Or.inl (by omega)
              · exact Or.inl (by omega)
              · exact Or.inl (by omega)
              · exact Or.inr ⟨by omega, by
                  subst e1
                  subst e2
                  exact ih ys zs k1 k2⟩

theorem cmpPair_trans (p q r : Str × Nat) (h1 : cmpPair p q = true)
    (h2 : cmpPair q r = true) : cmpPair p r = true := by
  simp only [cmpPair, Bool.or_eq_true, Bool.and_eq_true, decide_eq_true_eq] at h1 h2 ⊢
  rcases h1 with ha | ⟨ea, ka⟩ <;> rcases h2 with hb | ⟨eb, kb⟩
  · exact Or.inl (by omega)
  · exact Or.inl (by omega)
  · exact Or.inl (by omega)
  · exact Or.inr ⟨by omega, ltKey_trans p.1 q.1 r.1 ka kb⟩

theorem insertPair_perm (x : Str × Nat) (l : List (Str × Nat)) :
    (insertPair x l).Perm (x :: l) := by
  induction l with
  | nil => exact List.Perm.refl _
  | cons y ys ih =>
      by_cases h : cmpPair x y = true
      · simp [insertPair, h]
      · have h' : cmpPair x y = false := Bool.eq_false_iff.mpr h
        simp only [insertPair, h', Bool.false_eq_true, if_false]
        exact ((ih.cons y).trans (List.Perm.swap x y ys))

theorem sortPairs_perm (l : List (Str × Nat)) : (sortPairs l).Perm l := by
  induction l with
  | nil => exact List.Perm.refl _
  | cons x xs ih => exact (insertPair_perm x (sortPairs xs)).trans (ih.cons x)

theorem insertPair_pairwise (x : Str × Nat) (l : List (Str × Nat))
    (h : List.Pairwise (fun p q => cmpPair q p = false) l) :
    List.Pairwise (fun p q => cmpPair q p = false) (insertPair x l) := by
  induction l with
  | nil => simp [insertPair]
  | cons y ys ih =>
      rcases List.pairwise_cons.1 h with ⟨hy, hys⟩
      by_cases hc : cmpPair x y = true
      · simp only [insertPair, hc, if_true]
        refine List.pairwise_cons.2 ⟨?_, h⟩
        intro a ha
        rcases List.mem_cons.1 ha with rfl | ha2
        · exact cmpPair_asymm x a hc
        · rcases Bool.eq_false_or_eq_true (cmpPair a x) with hax | hax
          · have htrans := cmpPair_trans a x y hax hc
            rw [hy a ha2] at htrans
            simp at htrans
          · exact hax
      · have hc' : cmpPair x y = false := Bool.eq_false_iff.mpr hc
        simp only [insertPair, hc', Bool.false_eq_true, if_false]
        refine List.pairwise_cons.2 ⟨?_, ih hys⟩
        intro a ha
        have hmem := (insertPair_perm x ys).mem_iff.1 ha
        rcases List.mem_cons.1 hmem with rfl | ha2
        · exact hc'
        · exact hy a ha2

theorem sortPairs_pairwise (l : List (Str × Nat)) :
    List.Pairwise (fun p q => cmpPair q p = false) (sortPairs l) := by
  induction l with
  | nil => simp [sortPairs]
  | cons x xs ih => exact insertPair_pairwise x (sortPairs xs) ih

/-! ### Trace counting -/

theorem count_map_publish (l : List Nat) (j : Nat) :
    (l.map Ev.publish).count (Ev.publish j) = l.count j := by
  induction l with
  | nil => rfl
  | cons a l ih =>
      simp only [List.map_cons, List.count_cons, ih]
      by_cases h : j = a
      · subst h; simp
      · simp [h]

theorem count_publish_in_awaits (l : List Nat) (j : Nat) :
    (l.map Ev.await).count (Ev.publish j) = 0 := by
  induction l with
  | nil => rfl
  | cons a l ih => simp [List.count_cons, ih]

theorem count_range_eq (n j : Nat) : (List.range n).count j = if j < n then 1 else 0 := by
  induction n with
  | zero => simp
  | succ n ih =>
      rw [List.range_succ, List.count_append, ih]
      by_cases h : j = n
      · subst h
        simp [List.count_cons]
      · have h' : ¬ n = j := fun e => h e.symm
        simp only [List.count_cons, List.count_nil, h]
        by_cases h2 : j < n
        · have h3 : j < n + 1 := by omega
          simp [h2, h3, h']
        · have h3 : ¬ j < n + 1 := by omega
          simp [h2, h3, h']

/-! ### Key membership through the n-gram updates -/

theorem mapLookup_mapAdd_ne_none (k a : Str) (v : Nat) (m : Fmap) :
    mapLookup a (mapAdd k v m) ≠ none ↔ (a = k ∨ mapLookup a m ≠ none) := by
  rw [mapLookup_mapAdd]
  by_cases h : a = k
  · simp [h]
  · simp [h]

theorem applyGrams_lookup_ne_none (gs : List Str) :
    ∀ (st : LocalState) (g : Str),
      mapLookup g (applyGrams gs st).ngram_freq ≠ none ↔
        (g ∈ gs ∨ mapLookup g st.ngram_freq ≠ none) := by
  induction gs with
  | nil => intro st g; simp [applyGrams_nil]
  | cons g0 gs ih =>
      intro st g
      rw [applyGrams_cons, ih]
      have h : (noteGram g0 st).ngram_freq = mapAdd g0 1 st.ngram_freq := rfl
      rw [h, mapLookup_mapAdd_ne_none]
      simp only [List.mem_cons]
      tauto

/-! ### Normalization -/

theorem normalizeByte_idem (c : Nat) : normalizeByte (normalizeByte c) = normalizeByte c := by
  simp only [normalizeByte, isdigitB, ispunct, tolower, default_punct,
    Bool.or_eq_true, Bool.and_eq_true, decide_eq_true_eq]
  split_ifs <;> omega

theorem normalize_idem (s : Str) : normalize (normalize s) = normalize s := by
  simp only [normalize, List.map_map]
  exact List.map_congr_left (fun c _ => normalizeByte_idem c)

/-! ### The sentence scan -/

theorem scanGo_reads_bound (rem : Str) :
    ∀ (i p : Nat), p ∈ (scanGo rem i).2.2 → i ≤ p ∧ p ≤ i + rem.length := by
  induction rem with
  | nil =>
      intro i p hp
      simp [scanGo] at hp
      omega
  | cons c rest ih =>
      intro i p hp
      simp only [scanGo] at hp
      by_cases hc : c = default_punct
      · rw [if_pos hc] at hp
        simp at hp
        simp [List.length_cons]
        omega
      · rw [if_neg hc] at hp
        simp only [List.mem_cons] at hp
        rcases hp with rfl | hp2
        · simp [List.length_cons]
        · have := ih (i + 1) p hp2
          simp only [List.length_cons]
          omega

theorem scanReads_le (s : Str) (p : Nat) (hp : p ∈ scanReads s) : p ≤ s.length := by
  have := scanGo_reads_bound s 0 p hp
  omega

/-! ### Single-worker runs -/

theorem assignGo_one (files : List α) :
    ∀ (i : Nat) (acc : List α), assignGo 1 i files [acc] = [acc ++ files] := by
  induction files with
  | nil => intro i acc; simp [assignGo]
  | cons f fs ih =>
      intro i acc
      have h : setAt [acc] (i % 1) (fun p => p ++ [f]) = [acc ++ [f]] := by
        simp [Nat.mod_one, setAt]
      simp only [assignGo, h, ih]
      simp

theorem assignFiles_one (files : List α) : assignFiles 1 files = [files] := by
  have h := assignGo_one files 0 []
  simpa [assignFiles] using h

theorem computeP_prints_one (hashF : Str → Nat) (n : Nat) (files : List (Option Str)) :
    (computeP hashF n 1 files).prints = specPrints n files := by
  have h : (computeP hashF n 1 files).prints =
      (((assignFiles 1 files).map (sweepP hashF n 1)).map SweepOut.prints).flatten := rfl
  rw [h, assignFiles_one]
  have h2 : (sweepP hashF n 1 files).prints = (sweepLocalP n files).prints := rfl
  simp only [List.map_cons, List.map_nil, List.flatten_cons, List.flatten_nil,
    List.append_nil, h2]
  rw [sweepLocalP_prints]
  rfl

theorem foldl_mergeInto_congr (outs : List SweepOut) :
    ∀ outs' : List SweepOut,
      outs.map SweepOut.local_freq = outs'.map SweepOut.local_freq →
      ∀ acc : Fmap,
        outs.foldl (fun acc o => mergeInto acc o.local_freq) acc =
          outs'.foldl (fun acc o => mergeInto acc o.local_freq) acc := by
  induction outs with
  | nil =>
      intro outs' h acc
      cases outs' with
      | nil => rfl
      | cons o' os' => simp at h
  | cons o os ih =>
      intro outs' h acc
      cases outs' with
      | nil => simp at h
      | cons o' os' =>
          simp only [List.map_cons, List.cons.injEq] at h
          simp only [List.foldl_cons]
          rw [h.1]
          exact ih os' h.2 _

theorem computeP_freq_indep (hashF : Str → Nat) (n n' nw : Nat)
    (files : List (Option Str)) :
    (computeP hashF n nw files).freq = (computeP hashF n' nw files).freq := by
  have h1 : (computeP hashF n nw files).freq =
      ((assignFiles nw files).map (sweepP hashF n nw)).foldl
        (fun acc o => mergeInto acc o.local_freq) [] := rfl
  have h2 : (computeP hashF n' nw files).freq =
      ((assignFiles nw files).map (sweepP hashF n' nw)).foldl
        (fun acc o => mergeInto acc o.local_freq) [] := rfl
  rw [h1, h2]
  refine foldl_mergeInto_congr _ _ ?_ []
  rw [List.map_map, List.map_map]
  refine List.map_congr_left ?_
  intro fs _
  have ha : (SweepOut.local_freq ∘ sweepP hashF n nw) fs = (sweepLocalP n fs).local_freq :=
    rfl
  have hb : (SweepOut.local_freq ∘ sweepP hashF n' nw) fs =
      (sweepLocalP n' fs).local_freq := rfl
  rw [ha, hb]
  exact sweepLocalP_local_freq_indep n n' fs

theorem processFileP_none (n : Nat) (st : LocalState) : processFileP n none st = st := rfl

/-! ### Claims -/

/-- Claim C7 (confirmed): normalization is the pure byte-to-byte map, applied
once over the whole buffer, that replaces `\n` (10) and `\t` (9) by a space
(32), replaces every ASCII digit (48–57) and every ASCII punctuation byte
(33–47, 58–64, 91–96, 123–126) by the single reserved sentinel byte
`default_punct`, lowercases every ASCII letter (uppercase 65–90 gains 32,
lowercase 97–122 stays), leaves all other bytes unchanged, and the output has
the same length as the input. -/
theorem wc_C7_normalization :
    (∀ c : Nat,
      ((c = 10 ∨ c = 9) → normalizeByte c = 32) ∧
      (((48 ≤ c ∧ c ≤ 57) ∨ (33 ≤ c ∧ c ≤ 47) ∨ (58 ≤ c ∧ c ≤ 64) ∨ (91 ≤ c ∧ c ≤ 96) ∨
          (123 ≤ c ∧ c ≤ 126)) → normalizeByte c = default_punct) ∧
      ((65 ≤ c ∧ c ≤ 90) → normalizeByte c = c + 32) ∧
      ((97 ≤ c ∧ c ≤ 122) → normalizeByte c = c) ∧
      ((¬ (c = 10 ∨ c = 9) ∧
        ¬ ((48 ≤ c ∧ c ≤ 57) ∨ (33 ≤ c ∧ c ≤ 47) ∨ (58 ≤ c ∧ c ≤ 64) ∨ (91 ≤ c ∧ c ≤ 96) ∨
          (123 ≤ c ∧ c ≤ 126)) ∧ ¬ (65 ≤ c ∧ c ≤ 90)) → normalizeByte c = c)) ∧
    (∀ s : Str, (normalize s).length = s.length) := by
  constructor
  · intro c
    refine ⟨?_, ?_, ?_, ?_, ?_⟩ <;>
      (intro h
       simp only [normalizeByte, isdigitB, ispunct, tolower, default_punct,
         Bool.or_eq_true, Bool.and_eq_true, decide_eq_true_eq]
       split_ifs <;> omega)
  · intro s
    simp [normalize]

/-- Witness for C7 at concrete bytes: `\n` becomes a space, `.` stays the
sentinel, `A` becomes `a`, and the non-ASCII byte 200 is unchanged. -/
theorem wc_C7_witness :
    normalizeByte 10 = 32 ∧ normalizeByte 46 = default_punct ∧
      normalizeByte 65 = 97 ∧ normalizeByte 200 = 200 :=
  ⟨((wc_C7_normalization.1 10).1) (Or.inl rfl),
   ((wc_C7_normalization.1 46).2.1) (by omega),
   by simpa using ((wc_C7_normalization.1 65).2.2.1) (by omega),
   ((wc_C7_normalization.1 200).2.2.2.2) (by omega)⟩

/-- Claim C8 (confirmed): tokenization is idempotent — normalization composed
with itself equals normalization, so tokenizing the already-normalized text
(whole-buffer word tokens as well as the per-sentence token sequences) yields
exactly the token sequences of tokenizing the raw original text. -/
theorem wc_C8_idempotent_tokenization (s : Str) :
    normalize (normalize s) = normalize s ∧
    fileWordTokens (normalize (normalize s)) = fileWordTokens (normalize s) ∧
    (sentences (normalize (normalize s))).map sentenceTokens =
      (sentences (normalize s)).map sentenceTokens := by
  refine ⟨normalize_idem s, ?_, ?_⟩ <;> rw [normalize_idem s]

/-- Claim C10 (counterexample): it is not true that every byte position read by
the sentence scan loop is strictly less than the string's length — on the
sentinel-free string "ab" (bytes [97, 98]) the loop reads position 2, equal to
the length, because `my_string[i]` is evaluated before the bounds test
`i < my_string.size()`. -/
theorem wc_C10_counterexample :
    ¬ (∀ (s : Str) (p : Nat), p ∈ scanReads s → p < s.length) := by
  intro h
  have h2 := h [97, 98] 2 (by decide)
  exact absurd h2 (by decide)

/-- Claim C10 (amended, proved): every byte position read by the sentence scan
loop is at most the string's length; the read at position = length is
`std::string`'s null terminator (byte 0 — a defined read since C++11), which
differs from the sentinel so the loop then exits through its bounds test; the
scan terminates on every input, including strings with no sentinel byte
(`scanGo` is total by structural recursion). -/
theorem wc_C10_scan_reads (s : Str) (p : Nat) (hp : p ∈ scanReads s) :
    p ≤ s.length ∧ (p = s.length → stringIndex s p = 0) := by
  refine ⟨scanReads_le s p hp, ?_⟩
  intro he
  subst he
  simp [stringIndex]

/-- Witness for C10 at the concrete input "ab": position 2 is read, is equal
to (hence at most) the length, and reads the null terminator. -/
theorem wc_C10_witness :
    (2 ∈ scanReads [97, 98]) ∧
      (2 ≤ ([97, 98] : Str).length ∧
        (2 = ([97, 98] : Str).length → stringIndex [97, 98] 2 = 0)) :=
  ⟨by decide, wc_C10_scan_reads [97, 98] 2 (by decide)⟩

/-- Claim C3 (counterexample): a malformed configuration does not make the
program report a fatal error before the workers start, and does not prevent
the pipeline from starting.  With N = 0, one worker and an empty file list,
`compute` runs the worker to completion — it publishes its handoff slot
(`publications = [[[]]] ≠ []`) and returns normally; the embedded constructor
and `compute` have no error channel at all. -/
theorem wc_C3_counterexample :
    ¬ (∀ files : List (Option Str),
        compute (fun _ => 0) 0 1 files = none ∨
        ∀ r, compute (fun _ => 0) 0 1 files = some r → r.publications = []) := by
  intro h
  rcases h [] with h1 | h2
  · exact absurd h1 (by decide)
  · have h3 := h2 ⟨[[[]]], [], []⟩ (by decide)
    simp at h3

/-- Claim C3 (amended, proved): no configuration validation is performed.  The
constructor stores `dir`, `n` and `num_threads` unchanged and cannot fail;
with N = 0 and an empty file list the pipeline starts and completes normally,
publishing its handoff slot and reporting no error; with N = 0 and a file
containing a token, the n-gram recursion walks off the end of the token
sequence (undefined, modelled `none`); with worker count 0 and a non-empty
file list, the partition loop's `i % 0` is undefined (modelled `none`).  In no
case is an error surfaced to the caller before threads start. -/
theorem wc_C3_no_validation :
    (∀ (dir : Str) (n nt : Nat), wordCounterCtor dir n nt = ⟨dir, n, nt⟩) ∧
    compute (fun _ => 0) 0 1 [] = some ⟨[[[]]], [], []⟩ ∧
    compute (fun _ => 0) 0 1 [some [97]] = none ∧
    compute (fun _ => 0) 1 0 [some [97]] = none :=
  ⟨fun _ _ _ => rfl, by decide, by decide, by decide⟩

/-- Claim C4 (confirmed): sentence boundary — for every file contents and
every N ≥ 1, every n-gram recorded by `process_file` is a window of N
consecutive tokens of one single sentence of the normalized contents
(sentences being the maximal runs between sentinel bytes); in particular no
produced n-gram draws tokens from two different sentences. -/
theorem wc_C4_sentence_boundary (n : Nat) (contents : Str) (st' : LocalState)
    (hn : 1 ≤ n) (hrun : process_file n (some contents) initLS = some st') (g : Str)
    (hg : mapLookup g st'.ngram_freq ≠ none) :
    ∃ s ∈ sentences (normalize contents), g ∈ windowGrams n (sentenceTokens s) := by
  rw [process_file_eq n hn] at hrun
  have hst : st' = processFileP n (some contents) initLS := (Option.some.inj hrun).symm
  subst hst
  rw [processFileP_ngram_freq, applyGrams_lookup_ne_none] at hg
  rcases hg with hg | hg
  · rw [windowsOfContents, List.mem_flatten] at hg
    obtain ⟨l, hl, hgl⟩ := hg
    obtain ⟨s, hs, rfl⟩ := List.mem_map.1 hl
    exact ⟨s, hs, hgl⟩
  · simp [initLS, mapLookup] at hg

/-- Witness for C4 on the spec's example "cat sat. dog ran." with N = 2: the
recorded n-gram "cat sat" lies inside one sentence, and the cross-sentence
pair "sat dog" is not recorded at all. -/
theorem wc_C4_witness :
    (mapLookup [115, 97, 116, 32, 100, 111, 103]
        (processFileP 2
          (some [99, 97, 116, 32, 115, 97, 116, 46, 32, 100, 111, 103, 32, 114, 97,
            110, 46]) initLS).ngram_freq = none) ∧
    (∃ s ∈ sentences (normalize
        [99, 97, 116, 32, 115, 97, 116, 46, 32, 100, 111, 103, 32, 114, 97, 110, 46]),
      [99, 97, 116, 32, 115, 97, 116] ∈ windowGrams 2 (sentenceTokens s)) :=
  ⟨by decide,
   wc_C4_sentence_boundary 2
     [99, 97, 116, 32, 115, 97, 116, 46, 32, 100, 111, 103, 32, 114, 97, 110, 46]
     (processFileP 2
       (some [99, 97, 116, 32, 115, 97, 116, 46, 32, 100, 111, 103, 32, 114, 97, 110, 46])
       initLS)
     (by decide) (by decide) [99, 97, 116, 32, 115, 97, 116] (by decide)⟩

/-- Claim C5 (confirmed): after local counting, a worker's group-by partitions
its local n-gram map into `num_workers` sub-maps by ownership: slot `j` holds
exactly the local keys `g` with `hash(g) % num_workers = j`, each carrying its
local count, and every local key lands in exactly one published sub-map. -/
theorem wc_C5_shuffle_partition (hashF : Str → Nat) (n nw : Nat)
    (files : List (Option Str)) (o : SweepOut) (hn : 1 ≤ n) (hw : 1 ≤ nw)
    (hrun : sweep hashF n nw files = some o) :
    o.groups.length = nw ∧
    (∀ (g : Str) (j : Nat), j < nw →
      mapLookup g (o.groups.getD j []) =
        if mapLookup g o.ngram_freq ≠ none ∧ hashF g % nw = j
        then mapLookup g o.ngram_freq else none) ∧
    (∀ g : Str, mapLookup g o.ngram_freq ≠ none →
      ∃! j, j < nw ∧ mapLookup g (o.groups.getD j []) ≠ none) := by
  rw [sweep_eq hashF n nw files hn hw] at hrun
  have ho : o = sweepP hashF n nw files := (Option.some.inj hrun).symm
  subst ho
  have hInv := sweepLocalP_NGInv n files
  have hgroups : (sweepP hashF n nw files).groups =
      group_by_thread hashF nw (sweepLocalP n files).ngrams
        (sweepLocalP n files).ngram_freq := rfl
  have hlook : ∀ (g : Str) (j : Nat), j < nw →
      mapLookup g ((sweepP hashF n nw files).groups.getD j []) =
        if mapLookup g (sweepLocalP n files).ngram_freq ≠ none ∧ hashF g % nw = j
        then mapLookup g (sweepLocalP n files).ngram_freq else none := by
    intro g j hj
    rw [hgroups, group_by_thread_lookup _ _ _ _ _ _ hInv.1 hj]
    by_cases hmem : g ∈ (sweepLocalP n files).ngrams
    · have hne : mapLookup g (sweepLocalP n files).ngram_freq ≠ none := (hInv.2.1 g).1 hmem
      by_cases hjj : hashF g % nw = j
      · rw [if_pos ⟨hmem, hjj⟩, if_pos ⟨hne, hjj⟩]
        obtain ⟨v, hv⟩ := Option.ne_none_iff_exists'.1 hne
        rw [valD, hv]
        rfl
      · rw [if_neg (fun hc => hjj hc.2), if_neg (fun hc => hjj hc.2)]
    · have hnone : mapLookup g (sweepLocalP n files).ngram_freq = none := by
        by_contra hc
        exact hmem ((hInv.2.1 g).2 hc)
      rw [if_neg (fun hc => hmem hc.1), if_neg (fun hc => hc.1 hnone)]
  refine ⟨?_, ?_, ?_⟩
  · rw [hgroups]
    exact group_by_thread_length _ _ _ _
  · intro g j hj
    exact hlook g j hj
  · intro g hg
    have hg' : mapLookup g (sweepLocalP n files).ngram_freq ≠ none := hg
    have howner : hashF g % nw < nw := Nat.mod_lt _ (by omega)
    refine ⟨hashF g % nw, ⟨howner, ?_⟩, ?_⟩
    · rw [hlook g _ howner, if_pos ⟨hg', rfl⟩]
      exact hg'
    · rintro j ⟨hj, hne⟩
      by_contra hjj
      rw [hlook g j hj] at hne
      exact hne (if_neg (fun hc => hjj hc.2.symm))

/-- Witness for C5: a concrete two-worker run on one file "a b" with N = 1 and
hash = string length. -/
theorem wc_C5_witness :
    (1 ≤ 1 ∧ 1 ≤ 2) ∧
    ((sweepP (fun g => g.length) 1 2 [some [97, 32, 98]]).groups.length = 2 ∧
      (∀ (g : Str) (j : Nat), j < 2 →
        mapLookup g ((sweepP (fun g => g.length) 1 2 [some [97, 32, 98]]).groups.getD j []) =
          if mapLookup g (sweepP (fun g => g.length) 1 2 [some [97, 32, 98]]).ngram_freq ≠
                none ∧ g.length % 2 = j
          then mapLookup g (sweepP (fun g => g.length) 1 2 [some [97, 32, 98]]).ngram_freq
          else none) ∧
      (∀ g : Str,
        mapLookup g (sweepP (fun g => g.length) 1 2 [some [97, 32, 98]]).ngram_freq ≠ none →
        ∃! j, j < 2 ∧
          mapLookup g ((sweepP (fun g => g.length) 1 2 [some [97, 32, 98]]).groups.getD j [])
            ≠ none)) :=
  ⟨⟨le_refl 1, by decide⟩,
   wc_C5_shuffle_partition (fun g => g.length) 1 2 [some [97, 32, 98]]
     (sweepP (fun g => g.length) 1 2 [some [97, 32, 98]]) (by decide) (by decide)
     (by decide)⟩

/-- Claim C6 (confirmed): for every worker and every file list — including
lists where some reads fail (`none`, which contributes nothing: `process_file`
leaves the state unchanged) — the worker's `sweep` still completes its
shuffle send phase: its event trace is all `num_workers` publishes, each slot
exactly once, followed by (hence entirely before) its blocking reads of the
inbound slots. -/
theorem wc_C6_handoff (hashF : Str → Nat) (n nw : Nat) (files : List (Option Str))
    (hn : 1 ≤ n) (hw : 1 ≤ nw) :
    (∀ st : LocalState, process_file n none st = some st) ∧
    ∃ o, sweep hashF n nw files = some o ∧
      o.trace = (List.range nw).map Ev.publish ++ (List.range nw).map Ev.await ∧
      (∀ j, j < nw → o.trace.count (Ev.publish j) = 1) := by
  refine ⟨?_, sweepP hashF n nw files, sweep_eq hashF n nw files hn hw, rfl, ?_⟩
  · intro st
    rw [process_file_eq n hn, processFileP_none]
  · intro j hj
    have htr : (sweepP hashF n nw files).trace =
        (List.range nw).map Ev.publish ++ (List.range nw).map Ev.await := rfl
    rw [htr, List.count_append, count_map_publish, count_publish_in_awaits,
      count_range_eq]
    simp [hj]

/-- Witness for C6: two workers, one failing file and one real file. -/
theorem wc_C6_witness :
    (1 ≤ 1 ∧ 1 ≤ 2) ∧
    ((∀ st : LocalState, process_file 1 none st = some st) ∧
      ∃ o, sweep (fun _ => 0) 1 2 [none, some [97]] = some o ∧
        o.trace = (List.range 2).map Ev.publish ++ (List.range 2).map Ev.await ∧
        (∀ j, j < 2 → o.trace.count (Ev.publish j) = 1)) :=
  ⟨⟨le_refl 1, by decide⟩, wc_C6_handoff (fun _ => 0) 1 2 [none, some [97]]
    (by decide) (by decide)⟩

/-- Claim C1 (confirmed; the reduce/merge step is modelled from the spec —
`sweep` in the source receives the sub-maps into `my_fmaps` and discards
them): for every input file set, every N ≥ 1 and every worker count ≥ 1,
after the pipeline completes, the sum over all workers of the count a given
n-gram has in the worker's final map — the per-key-summed merge
(`reduceMaps`) of the `num_workers` sub-maps it received in the shuffle —
equals the number of occurrences of that exact n-gram over all input files,
as formed by sentence-bounded sliding windows of N tokens. -/
theorem wc_C1_conservation (hashF : Str → Nat) (n nw : Nat)
    (files : List (Option Str)) (g : Str) (hn : 1 ≤ n) (hw : 1 ≤ nw) :
    ∃ r, compute hashF n nw files = some r ∧
      ((List.range nw).map (fun j => valD (reduceMaps (receivedOf r nw j)) g)).sum =
        totalOccurrences n files g :=
  ⟨computeP hashF n nw files, compute_eq hashF n nw files hn hw,
    conservation_core hashF n nw files g hw⟩

/-- Witness for C1: two workers on the files "a b c. a b" and "b c" with
N = 2 and hash = string length; the bigram "a b" occurs twice in total. -/
theorem wc_C1_witness :
    (1 ≤ 2 ∧ 1 ≤ 2) ∧
    ∃ r, compute (fun g => g.length) 2 2
        [some [97, 32, 98, 32, 99, 46, 32, 97, 32, 98], some [98, 32, 99]] = some r ∧
      ((List.range 2).map (fun j => valD (reduceMaps (receivedOf r 2 j)) [97, 32, 98])).sum =
        totalOccurrences 2
          [some [97, 32, 98, 32, 99, 46, 32, 97, 32, 98], some [98, 32, 99]]
          [97, 32, 98] :=
  ⟨⟨by decide, by decide⟩,
   wc_C1_conservation (fun g => g.length) 2 2
     [some [97, 32, 98, 32, 99, 46, 32, 97, 32, 98], some [98, 32, 99]]
     [97, 32, 98] (by decide) (by decide)⟩

/-- Claim C2 (counterexample): the program's output is not one labeled block
of at most `header` sorted `"<n-gram>: <count>"` lines per worker followed by
a terminator and nothing else.  On the single file "a a a a" with N = 1 and
one worker, the program prints five lines — the four n-gram window lines
emitted during counting plus the one display line "a: 4" — while the claimed
shape accounts for at most three (any one label line, at most the one line of
the sorted single-entry map whatever the header limit, any one terminator
line). -/
theorem wc_C2_counterexample :
    ¬ ∃ (pre post : List Str) (k : Nat),
        programOutput (fun _ => 0) 1 1 [some [97, 32, 97, 32, 97, 32, 97]] =
          some (pre ++ ([[97, 58, 32, 52]].take k) ++ post) ∧
        pre.length ≤ 1 ∧ post.length ≤ 1 := by
  rintro ⟨pre, post, k, heq, hpre, hpost⟩
  have hout : programOutput (fun _ => 0) 1 1 [some [97, 32, 97, 32, 97, 32, 97]] =
      some [[97], [97], [97], [97], [97, 58, 32, 52]] := by decide
  rw [hout] at heq
  have hlen := congrArg List.length (Option.some.inj heq)
  simp only [List.length_append, List.length_take, List.length_cons,
    List.length_nil] at hlen
  omega

/-- Claim C2 (amended, proved): a single-worker run's externally observable
output is every n-gram window printed on its own line during counting (in
file/sentence/window order), followed by the global aggregated word-frequency
map rendered one line per entry as `"<word>: <count>"`, sorted by count
descending with ties broken by key ascending — with no worker labels, no
block terminator and no truncation. -/
theorem wc_C2_output (hashF : Str → Nat) (n : Nat) (files : List (Option Str))
    (hn : 1 ≤ n) :
    ∃ r, compute hashF n 1 files = some r ∧
      programOutput hashF n 1 files = some (r.prints ++ display r.freq) ∧
      r.prints = specPrints n files ∧
      ∃ sorted : List (Str × Nat), sorted.Perm r.freq ∧
        List.Pairwise (fun p q => cmpPair q p = false) sorted ∧
        display r.freq = sorted.map renderLine := by
  refine ⟨computeP hashF n 1 files, compute_eq hashF n 1 files hn (le_refl 1), ?_, ?_, ?_⟩
  · rw [programOutput, compute_eq hashF n 1 files hn (le_refl 1)]
    rfl
  · exact computeP_prints_one hashF n files
  · exact ⟨sortPairs (computeP hashF n 1 files).freq, sortPairs_perm _,
      sortPairs_pairwise _, rfl⟩

/-- Witness for C2 (amended) on the file "a b" with N = 1. -/
theorem wc_C2_witness :
    (1 ≤ 1) ∧
    ∃ r, compute (fun _ => 0) 1 1 [some [97, 32, 98]] = some r ∧
      programOutput (fun _ => 0) 1 1 [some [97, 32, 98]] =
        some (r.prints ++ display r.freq) ∧
      r.prints = specPrints 1 [some [97, 32, 98]] ∧
      ∃ sorted : List (Str × Nat), sorted.Perm r.freq ∧
        List.Pairwise (fun p q => cmpPair q p = false) sorted ∧
        display r.freq = sorted.map renderLine :=
  ⟨le_refl 1, wc_C2_output (fun _ => 0) 1 [some [97, 32, 98]] (by decide)⟩

/-- Claim C9 (counterexample): two runs on the same input with different
values of N do not print identical output — the n-gram lines printed during
counting depend on N.  On the file "a b", N = 1 prints the window lines "a"
and "b" while N = 2 prints the single window line "a b", before the identical
display lines. -/
theorem wc_C9_counterexample :
    programOutput (fun _ => 0) 1 1 [some [97, 32, 98]] ≠
      programOutput (fun _ => 0) 2 1 [some [97, 32, 98]] := by decide

/-- Claim C9 (amended, proved): the map printed by `display` is the per-word
frequency count over all files, ignoring sentence boundaries and independent
of N (the shuffled per-owner n-gram sub-maps never contribute to it): the
display lines are identical across any N ≥ 1, and the displayed map stores,
for every word, its total count over all files' word tokens.  The full
printed output, however, differs across N through the per-window n-gram lines
(see the counterexample). -/
theorem wc_C9_display_word_freq (hashF : Str → Nat) (na nb nw : Nat)
    (files : List (Option Str)) (hna : 1 ≤ na) (hnb : 1 ≤ nb) (hw : 1 ≤ nw) :
    (compute hashF na nw files).map (fun r => display r.freq) =
      (compute hashF nb nw files).map (fun r => display r.freq) ∧
    (∀ r, compute hashF na nw files = some r →
      ∀ w, valD r.freq w = totalWordCount files w) := by
  constructor
  · rw [compute_eq hashF na nw files hna hw, compute_eq hashF nb nw files hnb hw]
    show some (display (computeP hashF na nw files).freq) =
      some (display (computeP hashF nb nw files).freq)
    rw [computeP_freq_indep hashF na nb nw files]
  · intro r hr w
    rw [compute_eq hashF na nw files hna hw] at hr
    have h : r = computeP hashF na nw files := (Option.some.inj hr).symm
    subst h
    exact computeP_freq_valD hashF na nw files hw w

/-- Witness for C9 (amended): N = 1 versus N = 3 on the file "a" with one
worker. -/
theorem wc_C9_witness :
    (1 ≤ 1 ∧ 1 ≤ 3 ∧ 1 ≤ 1) ∧
    ((compute (fun _ => 0) 1 1 [some [97]]).map (fun r => display r.freq) =
      (compute (fun _ => 0) 3 1 [some [97]]).map (fun r => display r.freq) ∧
    (∀ r, compute (fun _ => 0) 1 1 [some [97]] = some r →
      ∀ w, valD r.freq w = totalWordCount [some [97]] w)) :=
  ⟨⟨le_refl 1, by decide, le_refl 1⟩,
   wc_C9_display_word_freq (fun _ => 0) 1 3 1 [some [97]] (by decide) (by decide)
     (by decide)⟩

end WordCounter
